import Mathlib

/-!
# Masking line writer

A shallow embedding of `maskingwriter.Writer` (`masking_writer.go`) and of the parts of
the Go standard library its `Write` runs through: `bytes.Buffer` (`Write`, `Read`),
`bufio.Reader` (`NewReader`, `fill`, `ReadSlice`, `collectFragments`, `ReadString`),
`strings` (`Index`, `Count`, `Replace`, `ReplaceAll`), `utf8.DecodeRuneInString` and
`io.WriteString`.

* A Go string or byte slice is a `List Byte`, a byte being a natural number.
* The two collaborators of the writer that live outside it, the `sync.Locker` and the
  backend `io.WriteCloser`, are represented by the trace of the calls the writer makes
  on them, in program order.  What the backend answers to a call is an argument of the
  operation that makes the call.
* `Write` is the run of the method in which each call of `Lock` returns.
  `WriteExclusive` puts it on a mutual-exclusion lock: there a call of `Lock` made while
  the guard is held never returns.
* Loops of the Go code are recursions on a fuel argument; a result `none` stands for a
  run that leaves the normal path inside the library (a library panic, or fuel that
  ran out).  The theorems below show that this never happens.
-/

namespace MaskingWriter

/-- A byte of a Go string or byte slice. -/
abbrev Byte := Nat

/-- The bytes of an ASCII string literal. -/
def ascii (s : String) : List Byte := s.toList.map Char.toNat

/-- The newline byte, the delimiter handed to `ReadString`. -/
def newline : Byte := 10

/-- The byte of the asterisk character. -/
def asterisk : Byte := 42

/-- The redaction marker, the Go literal of three asterisks. -/
def stars : List Byte := [asterisk, asterisk, asterisk]

/-- Go error values that occur on the paths of `Write` and `Close`. -/
inductive Error
  | EOF
  | ErrBufferFull
  | ErrNoProgress
  | backend (code : Nat)
  deriving DecidableEq

/-! ## `bytes.Buffer`

The buffer is represented by its unread portion `buf[off:]`. -/

/-- `(*bytes.Buffer).Write`: appends `p`, returns `len(p)` and a nil error. -/
def Buffer.Write (b : List Byte) (p : List Byte) : List Byte × Nat × Option Error :=
  (b ++ p, p.length, none)

/-- `(*bytes.Buffer).Read` into a slice of length `n`: the new buffer, the bytes copied
and the error.  An empty buffer gives `io.EOF`, unless the slice is empty too. -/
def Buffer.Read (b : List Byte) (n : Nat) : List Byte × List Byte × Option Error :=
  match b with
  | [] => if n = 0 then ([], [], none) else ([], [], some Error.EOF)
  | _ :: _ => (b.drop n, b.take n, none)

/-! ## `bufio.Reader` -/

/-- Size of the buffer that `bufio.NewReader` allocates. -/
def defaultBufSize : Nat := 4096

/-- Number of empty reads `fill` accepts before it gives up. -/
def maxConsecutiveEmptyReads : Nat := 100

/-- State of a `bufio.Reader` over a `bytes.Buffer`.  `buf` is `b.buf[0:b.w]` (so `b.w`
is `buf.length`), `r` is the read position, `rd` the underlying `bytes.Buffer`, which
the reader shares with the writer, and `err` the pending error. -/
structure Reader where
  buf : List Byte
  r : Nat
  rd : List Byte
  err : Option Error
  deriving DecidableEq

/-- `bufio.NewReader(rd)`. -/
def NewReader (rd : List Byte) : Reader :=
  { buf := [], r := 0, rd := rd, err := none }

/-- `(*Reader).Buffered`: `b.w - b.r`. -/
def Reader.Buffered (b : Reader) : Nat := b.buf.length - b.r

/-- The read loop of `(*Reader).fill`, `i` counting down from
`maxConsecutiveEmptyReads`. -/
def Reader.fillLoop : Nat → Reader → Reader
  | 0, b => { b with err := some Error.ErrNoProgress }
  | i + 1, b =>
    match Buffer.Read b.rd (defaultBufSize - b.buf.length) with
    | (rd, p, err) =>
      let b := { b with buf := b.buf ++ p, rd := rd }
      match err with
      | some e => { b with err := some e }
      | none => if p.length > 0 then b else Reader.fillLoop i b

/-- `(*Reader).fill`: slides the unread bytes to the front, then reads once more from
the underlying buffer.  `none` is the panic on a full buffer. -/
def Reader.fill (b : Reader) : Option Reader :=
  let b := if b.r > 0 then { b with buf := b.buf.drop b.r, r := 0 } else b
  if b.buf.length ≥ defaultBufSize then none
  else some (Reader.fillLoop maxConsecutiveEmptyReads b)

/-- `bytes.IndexByte`, with `none` for the result `-1`. -/
def IndexByte : List Byte → Byte → Option Nat
  | [], _ => none
  | x :: xs, c => if x = c then some 0 else (IndexByte xs c).map (· + 1)

/-- The loop of `(*Reader).ReadSlice`; `s` is the search start index.  Returns the
reader, the line and the error. -/
def Reader.ReadSliceLoop (delim : Byte) :
    Nat → Reader → Nat → Option (Reader × List Byte × Option Error)
  | 0, _, _ => none
  | fuel + 1, b, s =>
    match IndexByte (b.buf.drop (b.r + s)) delim with
    | some i =>
      let i := i + s
      some ({ b with r := b.r + i + 1 }, (b.buf.drop b.r).take (i + 1), none)
    | none =>
      match b.err with
      | some e =>
        some ({ b with r := b.buf.length, err := none }, b.buf.drop b.r, some e)
      | none =>
        if b.Buffered ≥ defaultBufSize then
          some ({ b with r := b.buf.length }, b.buf, some Error.ErrBufferFull)
        else
          match b.fill with
          | none => none
          | some b1 => Reader.ReadSliceLoop delim fuel b1 (b.buf.length - b.r)

/-- `(*Reader).ReadSlice`.  Every pass of its loop that does not leave it has called
`fill`, which sets an error or adds a byte to a buffer of `defaultBufSize` bytes. -/
def Reader.ReadSlice (b : Reader) (delim : Byte) :
    Option (Reader × List Byte × Option Error) :=
  Reader.ReadSliceLoop delim (defaultBufSize + 2) b 0

/-- The loop of `(*Reader).collectFragments`: the reader, the full buffers, the final
fragment, the total length and the error. -/
def Reader.collectFragmentsLoop (delim : Byte) :
    Nat → Reader → List (List Byte) → Nat →
      Option (Reader × List (List Byte) × List Byte × Nat × Option Error)
  | 0, _, _, _ => none
  | fuel + 1, b, fullBuffers, totalLen =>
    match b.ReadSlice delim with
    | none => none
    | some (b1, frag, none) => some (b1, fullBuffers, frag, totalLen + frag.length, none)
    | some (b1, frag, some e) =>
      if e ≠ Error.ErrBufferFull then
        some (b1, fullBuffers, frag, totalLen + frag.length, some e)
      else
        Reader.collectFragmentsLoop delim fuel b1 (fullBuffers ++ [frag])
          (totalLen + frag.length)

/-- `(*Reader).collectFragments`.  Every pass but the first that ends in
`ErrBufferFull` has taken a full block out of the underlying buffer. -/
def Reader.collectFragments (b : Reader) (delim : Byte) :
    Option (Reader × List (List Byte) × List Byte × Nat × Option Error) :=
  Reader.collectFragmentsLoop delim (b.rd.length + 2) b [] 0

/-- `(*Reader).ReadString`: the full buffers followed by the final fragment. -/
def Reader.ReadString (b : Reader) (delim : Byte) :
    Option (Reader × List Byte × Option Error) :=
  match b.collectFragments delim with
  | none => none
  | some (b1, full, frag, _, err) => some (b1, full.flatten ++ frag, err)

/-! ## `unicode/utf8` and `strings` -/

/-- Lowest continuation byte. -/
def locb : Byte := 0x80

/-- Highest continuation byte. -/
def hicb : Byte := 0xBF

/-- The size that `utf8.DecodeRuneInString` returns: the width of the first rune of
`s`, `1` for an invalid encoding and `0` for the empty string. -/
def DecodeRuneInStringSize : List Byte → Nat
  | [] => 0
  | s0 :: rest =>
    if s0 < 0x80 ∨ s0 < 0xC2 ∨ 0xF4 < s0 then 1
    else
      let sz := if s0 < 0xE0 then 2 else if s0 < 0xF0 then 3 else 4
      let lo := if s0 = 0xE0 then 0xA0 else if s0 = 0xF0 then 0x90 else locb
      let hi := if s0 = 0xED then 0x9F else if s0 = 0xF4 then 0x8F else hicb
      if rest.length + 1 < sz then 1
      else
        match rest with
        | [] => 1
        | s1 :: rest1 =>
          if s1 < lo ∨ hi < s1 then 1
          else if sz ≤ 2 then 2
          else
            match rest1 with
            | [] => 1
            | s2 :: rest2 =>
              if s2 < locb ∨ hicb < s2 then 1
              else if sz ≤ 3 then 3
              else
                match rest2 with
                | [] => 1
                | s3 :: _ => if s3 < locb ∨ hicb < s3 then 1 else 4

/-- The loop of `utf8.RuneCountInString`, one rune per pass. -/
def RuneCountLoop : Nat → List Byte → Nat → Nat
  | 0, _, n => n
  | fuel + 1, s, n =>
    match s with
    | [] => n
    | _ :: _ => RuneCountLoop fuel (s.drop (DecodeRuneInStringSize s)) (n + 1)

/-- `utf8.RuneCountInString`. -/
def RuneCountInString (s : List Byte) : Nat := RuneCountLoop s.length s 0

/-- `strings.Index`, with `none` for the result `-1`: the least `i` such that `substr`
is a prefix of `s[i:]`. -/
def Index : List Byte → List Byte → Option Nat
  | [], substr => if substr.isPrefixOf [] then some 0 else none
  | c :: s, substr =>
    if substr.isPrefixOf (c :: s) then some 0 else (Index s substr).map (· + 1)

/-- The loop of `strings.Count` for a non-empty `substr`. -/
def CountLoop (substr : List Byte) : Nat → List Byte → Nat → Nat
  | 0, _, n => n
  | fuel + 1, s, n =>
    match Index s substr with
    | none => n
    | some i => CountLoop substr fuel (s.drop (i + substr.length)) (n + 1)

/-- `strings.Count`: the number of non-overlapping instances of `substr` in `s`, and
the number of runes plus one for an empty `substr`. -/
def Count (s substr : List Byte) : Nat :=
  if substr.length = 0 then RuneCountInString s + 1
  else CountLoop substr (s.length + 1) s 0

/-- The replacement loop of `strings.Replace`.  `k` passes remain, `i` is the loop
counter, `rest` is `s[start:]` and `b` the builder.  `none` is the slice panic that
the code would run into if `Index` found nothing. -/
def ReplaceLoop (old new : List Byte) :
    Nat → Nat → List Byte → List Byte → Option (List Byte)
  | 0, _, rest, b => some (b ++ rest)
  | k + 1, i, rest, b =>
    let j : Option Nat :=
      if old.length = 0 then
        (if i > 0 then some (DecodeRuneInStringSize rest) else some 0)
      else Index rest old
    match j with
    | none => none
    | some j => ReplaceLoop old new k (i + 1) (rest.drop (j + old.length)) (b ++ rest.take j ++ new)

/-- `strings.Replace(s, old, new, n)` for `n < 0`, which is what `ReplaceAll` calls. -/
def Replace (s old new : List Byte) : Option (List Byte) :=
  if old = new then some s
  else
    let m := Count s old
    if m = 0 then some s
    else ReplaceLoop old new m 0 s []

/-- `strings.ReplaceAll`. -/
def ReplaceAll (s old new : List Byte) : Option (List Byte) := Replace s old new

/-! ## The writer -/

/-- A call the writer makes on its lock or on its backend. -/
inductive Event
  | lock
  | unlock
  | backendWrite (p : List Byte)
  | backendClose
  deriving DecidableEq

/-- `maskingwriter.Writer`.  `buffer` is the `bytes.Buffer`; the fields `lock` and
`backend` of the source are external objects and appear as `trace`, the calls made on
them so far. -/
structure Writer where
  buffer : List Byte
  masking : List (List Byte)
  ensureNewline : Bool
  trace : List Event
  deriving DecidableEq

/-- `maskingwriter.New`: an empty buffer, no call made yet. -/
def New (ensureNewline : Bool) (masking : List (List Byte)) : Writer :=
  { buffer := [], masking := masking, ensureNewline := ensureNewline, trace := [] }

/-- How a call of `Write` ends: it returns `(n, err)`, or it panics at `masking[0]`. -/
inductive Outcome
  | returned (n : Nat) (err : Option Error)
  | panicked
  deriving DecidableEq

/-- `(*Writer).Write`.  `backendErr` is the error that `io.WriteString` on the backend
returns for this call.  Both calls of `Lock` are taken to return; what a
mutual-exclusion lock does to a call made while the guard is held is in
`WriteExclusive`. -/
def Write (writer : Writer) (data : List Byte) (backendErr : Option Error) :
    Option (Writer × Outcome) :=
  match Buffer.Write writer.buffer data with
  | (buffer, written, err) =>
    let writer := { writer with
      buffer := buffer, trace := writer.trace ++ [Event.lock, Event.unlock] }
    match err with
    | some e => some (writer, Outcome.returned written (some e))
    | none =>
      let reader := NewReader writer.buffer
      let writer := { writer with trace := writer.trace ++ [Event.lock] }
      match reader.ReadString newline with
      | none => none
      | some (reader, line, _) =>
        let writer := { writer with buffer := reader.rd }
        match writer.masking with
        | [] => some (writer, Outcome.panicked)
        | m0 :: _ =>
          match ReplaceAll line m0 stars with
          | none => none
          | some line =>
            let writer := { writer with trace := writer.trace ++ [Event.backendWrite line] }
            let err := backendErr
            let writer := { writer with trace := writer.trace ++ [Event.unlock] }
            match err with
            | some e => some (writer, Outcome.returned 0 (some e))
            | none => some (writer, Outcome.returned written none)

/-- `(*Writer).Close`: closes the backend, and returns what the backend returns. -/
def Close (writer : Writer) (closeErr : Option Error) : Writer × Option Error :=
  ({ writer with trace := writer.trace ++ [Event.backendClose] }, closeErr)

/-! ## Observations -/

/-- The arguments of the backend writes of a trace, in order. -/
def backendWrites : List Event → List (List Byte)
  | [] => []
  | Event.backendWrite p :: es => p :: backendWrites es
  | _ :: es => backendWrites es

/-- All bytes the backend has received. -/
def received (w : Writer) : List Byte := (backendWrites w.trace).flatten

/-- One `Write` call per chunk on a backend that never fails; `none` if a call does
not return `(len(chunk), nil)`. -/
def writeChunks : Writer → List (List Byte) → Option Writer
  | w, [] => some w
  | w, c :: cs =>
    match Write w c none with
    | some (w1, Outcome.returned _ none) => writeChunks w1 cs
    | _ => none

/-- Whether every backend call of a trace is made while the guard is held.  `held` is
the state of the guard before the trace; `lock` sets it and `unlock` clears it. -/
def backendCallsGuarded : Bool → List Event → Bool
  | _, [] => true
  | _, Event.lock :: es => backendCallsGuarded true es
  | _, Event.unlock :: es => backendCallsGuarded false es
  | held, Event.backendWrite _ :: es => held && backendCallsGuarded held es
  | held, Event.backendClose :: es => held && backendCallsGuarded held es

/-- A call on the writer, together with what the backend answers during that call. -/
inductive Call
  | write (data : List Byte) (backendErr : Option Error)
  | close (closeErr : Option Error)
  deriving DecidableEq

/-- What a call on the writer gives back to its caller. -/
inductive CallResult
  | ofWrite (o : Outcome)
  | ofClose (err : Option Error)
  deriving DecidableEq

/-- A sequence of calls, in order: the final state and what each call gave back.  A
call of `Write` that panics leaves the state it had reached, and the sequence goes on
from there, as for a caller that recovers. -/
def runCalls : Writer → List Call → Option (Writer × List CallResult)
  | w, [] => some (w, [])
  | w, Call.write data backendErr :: cs =>
    match Write w data backendErr with
    | none => none
    | some (w1, o) => (runCalls w1 cs).map (fun x => (x.1, CallResult.ofWrite o :: x.2))
  | w, Call.close closeErr :: cs =>
    match Close w closeErr with
    | (w1, err) => (runCalls w1 cs).map (fun x => (x.1, CallResult.ofClose err :: x.2))

/-- The guard of a mutual-exclusion lock after the calls of a trace, `held` being its
state before them: held after a `Lock` that returned, released after an `Unlock`. -/
def guardAfter : Bool → List Event → Bool
  | held, [] => held
  | _, Event.lock :: es => guardAfter true es
  | _, Event.unlock :: es => guardAfter false es
  | held, Event.backendWrite _ :: es => guardAfter held es
  | held, Event.backendClose :: es => guardAfter held es

/-- Whether the guard of the writer is held, for a lock that was released when the
writer was built and that only the writer uses. -/
def guardHeld (w : Writer) : Bool := guardAfter false w.trace

/-- How a call of `Write` on a mutual-exclusion lock goes: it waits for ever in the
`Lock` of line 45, or it ends as `Write` ends. -/
inductive Progress
  | blocked
  | finished (w : Writer) (o : Outcome)
  deriving DecidableEq

/-- `(*Writer).Write` when `lock` is a mutual-exclusion lock, such as `sync.Mutex`, that
only the writer uses.  The `Lock` of line 45 returns if and only if the guard is
released; the `Lock` of line 53 comes right after the `Unlock` of line 47, and returns. -/
def WriteExclusive (writer : Writer) (data : List Byte) (backendErr : Option Error) :
    Option Progress :=
  if guardHeld writer then some Progress.blocked
  else (Write writer data backendErr).map (fun x => Progress.finished x.1 x.2)

/-! ## Closed forms used in the proofs -/

/-- Closed form of `ReadString` on a fresh reader over a buffer holding `s`: the line,
the error, and what is left in the buffer afterwards.  The reader takes the buffer in
blocks of `defaultBufSize` bytes, up to and including the block with the delimiter. -/
def readStringSpec (s : List Byte) (delim : Byte) : List Byte × Option Error × List Byte :=
  match IndexByte s delim with
  | none => (s, some Error.EOF, [])
  | some i => (s.take (i + 1), none, s.drop (defaultBufSize * (i / defaultBufSize + 1)))

/-- What `Write` returns once the backend has answered `backendErr`. -/
def writeOutcome (data : List Byte) (backendErr : Option Error) : Outcome :=
  match backendErr with
  | some e => Outcome.returned 0 (some e)
  | none => Outcome.returned data.length none

/-- Replacement of the non-overlapping instances of `old`, leftmost first, written as
a recursion on the rest of the string. -/
def replaceDirect (old new : List Byte) : Nat → List Byte → List Byte
  | 0, s => s
  | fuel + 1, s =>
    match Index s old with
    | none => s
    | some j => s.take j ++ new ++ replaceDirect old new fuel (s.drop (j + old.length))

/-! ## The line reader in closed form -/

theorem Reader.fill_eq (b : Reader) (he : b.err = none)
    (hlt : b.buf.length - b.r < defaultBufSize) :
    b.fill = some (match b.rd with
      | [] => { buf := b.buf.drop b.r, r := 0, rd := [], err := some Error.EOF }
      | _ :: _ =>
        { buf := b.buf.drop b.r ++ b.rd.take (defaultBufSize - (b.buf.length - b.r)),
          r := 0, rd := b.rd.drop (defaultBufSize - (b.buf.length - b.r)), err := none }) := by
  obtain ⟨buf, r, rd, err⟩ := b
  simp only at he hlt
  subst he
  have hpos : defaultBufSize - (buf.length - r) ≠ 0 := by omega
  rcases Nat.eq_zero_or_pos r with hr | hr
  · subst hr
    simp only [Nat.sub_zero] at hlt hpos
    cases rd with
    | nil =>
      simp [Reader.fill, Reader.fillLoop, maxConsecutiveEmptyReads, Buffer.Read, hlt, hpos]
    | cons x xs =>
      have : 0 < defaultBufSize - buf.length := by omega
      simp [Reader.fill, Reader.fillLoop, maxConsecutiveEmptyReads, Buffer.Read, hlt, this]
  · cases rd with
    | nil =>
      simp [Reader.fill, Reader.fillLoop, maxConsecutiveEmptyReads, Buffer.Read, hlt, hpos, hr]
    | cons x xs =>
      have : 0 < defaultBufSize - (buf.length - r) := by omega
      simp [Reader.fill, Reader.fillLoop, maxConsecutiveEmptyReads, Buffer.Read, hlt, this, hr]


theorem IndexByte_nil (c : Byte) : IndexByte [] c = none := rfl

theorem Reader.ReadSliceLoop_empty (delim : Byte) (k : Nat) (buf : List Byte) :
    Reader.ReadSliceLoop delim (k + 2) { buf := buf, r := buf.length, rd := [], err := none } 0
      = some ({ buf := [], r := 0, rd := [], err := none }, [], some Error.EOF) := by
  have hfill := Reader.fill_eq { buf := buf, r := buf.length, rd := [], err := none } rfl
    (by simp [defaultBufSize])
  simp only [List.drop_length] at hfill
  simp [Reader.ReadSliceLoop, Reader.Buffered, IndexByte_nil, hfill, defaultBufSize]

theorem Reader.ReadSliceLoop_found (delim : Byte) (k : Nat) (buf : List Byte) (x : Byte)
    (xs : List Byte) (i : Nat)
    (hi : IndexByte ((x :: xs).take defaultBufSize) delim = some i) :
    Reader.ReadSliceLoop delim (k + 2) { buf := buf, r := buf.length, rd := x :: xs, err := none } 0
      = some ({ buf := (x :: xs).take defaultBufSize, r := i + 1,
                rd := (x :: xs).drop defaultBufSize, err := none },
              ((x :: xs).take defaultBufSize).take (i + 1), none) := by
  have hfill := Reader.fill_eq { buf := buf, r := buf.length, rd := x :: xs, err := none } rfl
    (by simp [defaultBufSize])
  simp only [List.drop_length, Nat.sub_self, Nat.sub_zero, List.nil_append] at hfill
  simp [Reader.ReadSliceLoop, Reader.Buffered, IndexByte_nil, hfill, hi]
  simp [defaultBufSize]

theorem Reader.ReadSliceLoop_full (delim : Byte) (k : Nat) (buf : List Byte) (x : Byte)
    (xs : List Byte)
    (hi : IndexByte ((x :: xs).take defaultBufSize) delim = none)
    (hlen : defaultBufSize ≤ (x :: xs).length) :
    Reader.ReadSliceLoop delim (k + 2) { buf := buf, r := buf.length, rd := x :: xs, err := none } 0
      = some ({ buf := (x :: xs).take defaultBufSize, r := ((x :: xs).take defaultBufSize).length,
                rd := (x :: xs).drop defaultBufSize, err := none },
              (x :: xs).take defaultBufSize, some Error.ErrBufferFull) := by
  have hfill := Reader.fill_eq { buf := buf, r := buf.length, rd := x :: xs, err := none } rfl
    (by simp [defaultBufSize])
  simp only [List.drop_length, Nat.sub_self, Nat.sub_zero, List.nil_append] at hfill
  have hl : ((x :: xs).take defaultBufSize).length = defaultBufSize := by
    rw [List.length_take]; omega
  have h0 : defaultBufSize ≠ 0 := by simp [defaultBufSize]
  have hlen1 : defaultBufSize ≤ xs.length + 1 := by simpa using hlen
  simp [Reader.ReadSliceLoop, Reader.Buffered, IndexByte_nil, hfill, hi, h0, hlen1]

theorem Reader.ReadSliceLoop_short (delim : Byte) (k : Nat) (buf : List Byte) (x : Byte)
    (xs : List Byte)
    (hi : IndexByte (x :: xs) delim = none)
    (hlen : (x :: xs).length < defaultBufSize) :
    Reader.ReadSliceLoop delim (k + 3) { buf := buf, r := buf.length, rd := x :: xs, err := none } 0
      = some ({ buf := x :: xs, r := (x :: xs).length, rd := [], err := none },
              x :: xs, some Error.EOF) := by
  have hfill := Reader.fill_eq { buf := buf, r := buf.length, rd := x :: xs, err := none } rfl
    (by simp [defaultBufSize])
  have htake : (x :: xs).take defaultBufSize = x :: xs := List.take_of_length_le (by omega)
  have hdrop : (x :: xs).drop defaultBufSize = [] := List.drop_of_length_le (by omega)
  simp only [List.drop_length, Nat.sub_self, Nat.sub_zero, List.nil_append, htake, hdrop] at hfill
  have hfill2 := Reader.fill_eq { buf := x :: xs, r := 0, rd := [], err := none } rfl
    (by simpa using hlen)
  simp only [List.drop_zero] at hfill2
  have hlen1 : ¬ defaultBufSize ≤ xs.length + 1 := by simpa using hlen
  have h0 : defaultBufSize ≠ 0 := by simp [defaultBufSize]
  simp [Reader.ReadSliceLoop, Reader.Buffered, IndexByte_nil, hfill, hfill2, hi, hlen1, h0]

theorem IndexByte_lt {s : List Byte} {c : Byte} {i : Nat} (h : IndexByte s c = some i) :
    i < s.length := by
  induction s generalizing i with
  | nil => simp [IndexByte] at h
  | cons x xs ih =>
    simp only [IndexByte] at h
    split at h
    · simp at h; subst h; simp
    · cases hx : IndexByte xs c with
      | none => simp [hx] at h
      | some j =>
        simp [hx] at h
        have := ih hx
        simp only [List.length_cons]; omega

theorem IndexByte_append (a b : List Byte) (c : Byte) :
    IndexByte (a ++ b) c =
      match IndexByte a c with
      | some i => some i
      | none => (IndexByte b c).map (· + a.length) := by
  induction a with
  | nil => cases h : IndexByte b c <;> simp [IndexByte, h]
  | cons x xs ih =>
    simp only [List.cons_append, IndexByte]
    split
    · rfl
    · have ih1 : IndexByte (xs.append b) c = _ := ih
      rw [ih1]
      cases h1 : IndexByte xs c with
      | some i => simp
      | none =>
        cases h2 : IndexByte b c with
        | none => simp
        | some j => simp; omega

theorem IndexByte_eq_none_iff (s : List Byte) (c : Byte) : IndexByte s c = none ↔ c ∉ s := by
  induction s with
  | nil => simp [IndexByte]
  | cons x xs ih =>
    simp only [IndexByte, List.mem_cons, not_or]
    split
    · rename_i h; simp [h]
    · rename_i h
      simp only [Option.map_eq_none', ih]
      constructor
      · intro h1; exact ⟨fun h2 => h h2.symm, h1⟩
      · intro h1; exact h1.2

theorem readStringSpec_block (s : List Byte) (delim : Byte)
    (hi : IndexByte (s.take defaultBufSize) delim = none) (hlen : defaultBufSize ≤ s.length) :
    readStringSpec s delim =
      (s.take defaultBufSize ++ (readStringSpec (s.drop defaultBufSize) delim).1,
        (readStringSpec (s.drop defaultBufSize) delim).2.1,
        (readStringSpec (s.drop defaultBufSize) delim).2.2) := by
  have hs : s = s.take defaultBufSize ++ s.drop defaultBufSize := (List.take_append_drop _ _).symm
  have hl : (s.take defaultBufSize).length = defaultBufSize := by
    rw [List.length_take]; omega
  generalize s.take defaultBufSize = chunk at hs hi hl
  generalize s.drop defaultBufSize = rest at hs
  subst hs
  have hidx := IndexByte_append chunk rest delim
  rw [hi] at hidx
  simp only at hidx
  unfold readStringSpec
  rw [hidx]
  cases hr : IndexByte rest delim with
  | none => simp
  | some j =>
    have h0 : 0 < defaultBufSize := by simp [defaultBufSize]
    have hdiv : (j + chunk.length) / defaultBufSize = j / defaultBufSize + 1 := by
      rw [hl]; exact Nat.add_div_right j h0
    simp only [Option.map_some', hdiv]
    have e1 : j + chunk.length + 1 = chunk.length + (j + 1) := by omega
    have e2 : defaultBufSize * (j / defaultBufSize + 1 + 1)
        = chunk.length + defaultBufSize * (j / defaultBufSize + 1) := by
      rw [hl]; ring
    rw [e1, e2, List.take_append, List.drop_append]

theorem Reader.collectFragmentsLoop_spec (delim : Byte) :
    ∀ (fuel : Nat) (rd buf : List Byte) (full : List (List Byte)) (n : Nat),
      rd.length + 2 ≤ fuel →
      ∃ b1 full1 frag n1,
        Reader.collectFragmentsLoop delim fuel
            { buf := buf, r := buf.length, rd := rd, err := none } full n
          = some (b1, full1, frag, n1, (readStringSpec rd delim).2.1)
        ∧ full1.flatten ++ frag = full.flatten ++ (readStringSpec rd delim).1
        ∧ b1.rd = (readStringSpec rd delim).2.2 := by
  intro fuel
  induction fuel with
  | zero => intro rd buf full n h; omega
  | succ fuel ih =>
    intro rd buf full n hfuel
    have hfuel3 : defaultBufSize + 2 = 4095 + 3 := rfl
    have hfuel2 : defaultBufSize + 2 = 4096 + 2 := rfl
    cases rd with
    | nil =>
      refine ⟨Reader.mk [] 0 [] none, full, [], n + 0, ?_, ?_, ?_⟩
      · simp [Reader.collectFragmentsLoop, Reader.ReadSlice, hfuel2,
          Reader.ReadSliceLoop_empty, readStringSpec, IndexByte]
      · simp [readStringSpec, IndexByte]
      · simp [readStringSpec, IndexByte]
    | cons x xs =>
      have hsplit : x :: xs = (x :: xs).take defaultBufSize ++ (x :: xs).drop defaultBufSize :=
        (List.take_append_drop _ _).symm
      cases hi : IndexByte ((x :: xs).take defaultBufSize) delim with
      | some i =>
        have hlt := IndexByte_lt hi
        have hiN : i < defaultBufSize := by
          rw [List.length_take] at hlt; omega
        have hidx : IndexByte (x :: xs) delim = some i := by
          rw [hsplit, IndexByte_append, hi]
        have hspec : readStringSpec (x :: xs) delim
            = ((x :: xs).take (i + 1), none, (x :: xs).drop defaultBufSize) := by
          unfold readStringSpec
          rw [hidx]
          simp [Nat.div_eq_of_lt hiN]
        have htt : ((x :: xs).take defaultBufSize).take (i + 1) = (x :: xs).take (i + 1) := by
          rw [List.take_take, Nat.min_eq_left (by omega)]
        refine ⟨Reader.mk ((x :: xs).take defaultBufSize) (i + 1)
            ((x :: xs).drop defaultBufSize) none, full, (x :: xs).take (i + 1),
          n + ((x :: xs).take (i + 1)).length, ?_, ?_, ?_⟩
        · simp only [Reader.collectFragmentsLoop, Reader.ReadSlice, hfuel2,
            Reader.ReadSliceLoop_found delim _ buf x xs i hi, hspec, htt]
        · rw [hspec]
        · rw [hspec]
      | none =>
        by_cases hlen : defaultBufSize ≤ (x :: xs).length
        · have hr : ((x :: xs).drop defaultBufSize).length + 2 ≤ fuel := by
            have h0 : 0 < defaultBufSize := by simp [defaultBufSize]
            rw [List.length_drop]; omega
          obtain ⟨b1, full1, frag, n1, h1, h2, h3⟩ :=
            ih ((x :: xs).drop defaultBufSize) ((x :: xs).take defaultBufSize)
              (full ++ [(x :: xs).take defaultBufSize])
              (n + ((x :: xs).take defaultBufSize).length) hr
          have hspec := readStringSpec_block (x :: xs) delim hi hlen
          refine ⟨b1, full1, frag, n1, ?_, ?_, ?_⟩
          · simp only [Reader.collectFragmentsLoop, Reader.ReadSlice, hfuel2,
              Reader.ReadSliceLoop_full delim _ buf x xs hi hlen]
            simp only [ne_eq, not_true_eq_false, ↓reduceIte]
            rw [h1, hspec]
          · rw [h2, hspec]; simp
          · rw [h3, hspec]
        · have hlen1 : (x :: xs).length < defaultBufSize := by omega
          have htake : (x :: xs).take defaultBufSize = x :: xs :=
            List.take_of_length_le (by omega)
          rw [htake] at hi
          have hspec : readStringSpec (x :: xs) delim = (x :: xs, some Error.EOF, []) := by
            unfold readStringSpec; rw [hi]
          refine ⟨Reader.mk (x :: xs) (x :: xs).length [] none, full, x :: xs,
            n + (x :: xs).length, ?_, ?_, ?_⟩
          · simp only [Reader.collectFragmentsLoop, Reader.ReadSlice, hfuel3,
              Reader.ReadSliceLoop_short delim _ buf x xs hi hlen1, hspec]
            simp
          · rw [hspec]
          · rw [hspec]

theorem Reader.ReadString_NewReader (s : List Byte) (delim : Byte) :
    ∃ b1, (NewReader s).ReadString delim
        = some (b1, (readStringSpec s delim).1, (readStringSpec s delim).2.1)
      ∧ b1.rd = (readStringSpec s delim).2.2 := by
  obtain ⟨b1, full1, frag, n1, h1, h2, h3⟩ :=
    Reader.collectFragmentsLoop_spec delim (s.length + 2) s [] [] 0 (le_refl _)
  refine ⟨b1, ?_, h3⟩
  have h1a : (NewReader s).collectFragments delim
      = some (b1, full1, frag, n1, (readStringSpec s delim).2.1) := h1
  simp only [Reader.ReadString, h1a, h2, List.flatten_nil, List.nil_append]

theorem Write_eq (w : Writer) (data : List Byte) (e : Option Error) (t : List Byte)
    (ms : List (List Byte)) (hm : w.masking = t :: ms) :
    Write w data e =
      (ReplaceAll (readStringSpec (w.buffer ++ data) newline).1 t stars).map (fun line =>
        ({ w with
            buffer := (readStringSpec (w.buffer ++ data) newline).2.2,
            trace := w.trace ++ [Event.lock, Event.unlock, Event.lock,
              Event.backendWrite line, Event.unlock] },
          writeOutcome data e)) := by
  obtain ⟨b1, h1, h2⟩ := Reader.ReadString_NewReader (w.buffer ++ data) newline
  simp only [Write, Buffer.Write, h1, h2, hm]
  cases hr : ReplaceAll (readStringSpec (w.buffer ++ data) newline).1 t stars with
  | none => simp
  | some line => cases e <;> simp [writeOutcome]

theorem Write_nil_masking (w : Writer) (data : List Byte) (e : Option Error)
    (hm : w.masking = []) :
    Write w data e =
      some ({ w with
          buffer := (readStringSpec (w.buffer ++ data) newline).2.2,
          trace := w.trace ++ [Event.lock, Event.unlock, Event.lock] },
        Outcome.panicked) := by
  obtain ⟨b1, h1, h2⟩ := Reader.ReadString_NewReader (w.buffer ++ data) newline
  simp [Write, Buffer.Write, h1, h2, hm]

/-! ## `strings.ReplaceAll` -/

theorem Index_eq_none_iff (s t : List Byte) : Index s t = none ↔ ¬ t <:+: s := by
  induction s with
  | nil =>
    simp only [Index, List.isPrefixOf_iff_prefix, List.prefix_nil, List.infix_nil]
    split <;> simp_all
  | cons c s ih =>
    simp only [Index, List.isPrefixOf_iff_prefix, List.infix_cons_iff, not_or]
    split
    · rename_i h; simp [h]
    · rename_i h; simp [h, ih]

theorem Index_some_drop {s t : List Byte} {j : Nat} (h : Index s t = some j) :
    t <+: s.drop j := by
  induction s generalizing j with
  | nil =>
    simp only [Index, List.isPrefixOf_iff_prefix] at h
    split at h
    · rename_i hp; simpa using hp
    · simp at h
  | cons c s ih =>
    simp only [Index, List.isPrefixOf_iff_prefix] at h
    split at h
    · rename_i hp
      simp only [Option.some.injEq] at h
      subst h
      simpa using hp
    · cases hx : Index s t with
      | none => simp [hx] at h
      | some k =>
        simp only [hx, Option.map_some', Option.some.injEq] at h
        subst h
        simpa using ih hx

theorem Index_some_take {s t : List Byte} {j : Nat} (ht : t ≠ []) (h : Index s t = some j) :
    ¬ t <:+: s.take j := by
  induction s generalizing j with
  | nil => simpa using ht
  | cons c s ih =>
    simp only [Index, List.isPrefixOf_iff_prefix] at h
    split at h
    · simp only [Option.some.injEq] at h
      subst h
      simpa using ht
    · rename_i hp
      cases hx : Index s t with
      | none => simp [hx] at h
      | some k =>
        simp only [hx, Option.map_some', Option.some.injEq] at h
        subst h
        simp only [List.take_succ_cons, List.infix_cons_iff, not_or]
        refine ⟨fun hpre => hp (hpre.trans ?_), ih hx⟩
        exact (List.prefix_cons_inj c).2 (List.take_prefix k s)

theorem occurs_of_append_cons {t A B : List Byte} {x : Byte} (hx : x ∉ t)
    (h : t <:+: A ++ x :: B) : t <:+: A ∨ t <:+: B := by
  obtain ⟨p, q, hpq⟩ := h
  rcases List.append_eq_append_iff.1 hpq with ⟨a1, hA, _⟩ | ⟨c1, hpt, hxB⟩
  · exact Or.inl ⟨p, a1, hA.symm⟩
  · cases c1 with
    | nil =>
      simp only [List.append_nil] at hpt
      exact Or.inl ⟨p, [], by simpa using hpt⟩
    | cons y c2 =>
      simp only [List.cons_append, List.cons.injEq] at hxB
      obtain ⟨hy, hB⟩ := hxB
      subst hy
      rcases List.append_eq_append_iff.1 hpt with ⟨a2, _, ht⟩ | ⟨c3, _, hc3⟩
      · exact absurd (by rw [ht]; simp) hx
      · cases c3 with
        | nil =>
          simp only [List.nil_append] at hc3
          exact absurd (by rw [← hc3]; simp) hx
        | cons z c4 =>
          simp only [List.cons_append, List.cons.injEq] at hc3
          refine Or.inr ⟨c4, q, ?_⟩
          rw [hB, hc3.2]

theorem CountLoop_acc (t : List Byte) :
    ∀ (fuel : Nat) (s : List Byte) (n : Nat),
      CountLoop t fuel s n = n + CountLoop t fuel s 0 := by
  intro fuel
  induction fuel with
  | zero => intro s n; simp [CountLoop]
  | succ fuel ih =>
    intro s n
    simp only [CountLoop]
    cases hI : Index s t with
    | none => simp
    | some j =>
      simp only
      rw [ih _ (n + 1), ih _ (0 + 1)]
      omega

theorem Index_some_length {s t : List Byte} {j : Nat} (h : Index s t = some j) :
    j + t.length ≤ s.length := by
  have hp := (Index_some_drop h).length_le
  rw [List.length_drop] at hp
  by_cases hj : j ≤ s.length
  · by_cases ht : t.length = 0
    · omega
    · omega
  · have : s.drop j = [] := List.drop_of_length_le (by omega)
    have hp2 := Index_some_drop h
    rw [this] at hp2
    have ht : t = [] := by simpa using hp2
    subst ht
    cases s with
    | nil => simp [Index] at h; omega
    | cons c s => simp [Index] at h; omega

theorem ReplaceLoop_direct (old new : List Byte) (hold : old ≠ []) :
    ∀ (fuel : Nat) (s b : List Byte) (i : Nat), s.length < fuel →
      ReplaceLoop old new (CountLoop old fuel s 0) i s b
        = some (b ++ replaceDirect old new fuel s) := by
  have hlen : old.length ≠ 0 := by simpa using hold
  intro fuel
  induction fuel with
  | zero => intro s b i h; omega
  | succ fuel ih =>
    intro s b i hs
    simp only [CountLoop, replaceDirect]
    cases hI : Index s old with
    | none => simp [ReplaceLoop]
    | some j =>
      simp only
      have hjl := Index_some_length hI
      have hlt : (s.drop (j + old.length)).length < fuel := by
        rw [List.length_drop]; omega
      rw [CountLoop_acc, Nat.add_comm (0 + 1)]
      simp only [Nat.zero_add, ReplaceLoop, hlen, ↓reduceIte, hI]
      rw [ih _ _ _ hlt]
      simp

theorem Replace_eq_direct (s old new : List Byte) (hold : old ≠ []) (hne : old ≠ new) :
    Replace s old new = some (replaceDirect old new (s.length + 1) s) := by
  have hlen : old.length ≠ 0 := by simpa using hold
  have h := ReplaceLoop_direct old new hold (s.length + 1) s [] 0 (Nat.lt_succ_self _)
  simp only [Replace, hne, ↓reduceIte, Count, hlen]
  split
  · rename_i h0
    rw [h0] at h
    simp only [ReplaceLoop, List.nil_append, Option.some.injEq] at h
    rw [← h]
  · simpa using h

theorem replaceDirect_clean (t : List Byte) (ht : t ≠ []) (hstar : asterisk ∉ t) :
    ∀ (fuel : Nat) (s : List Byte), s.length < fuel →
      ¬ t <:+: replaceDirect t stars fuel s := by
  have hlen : t.length ≠ 0 := by simpa using ht
  intro fuel
  induction fuel with
  | zero => intro s h; omega
  | succ fuel ih =>
    intro s hs
    simp only [replaceDirect]
    cases hI : Index s t with
    | none => exact (Index_eq_none_iff s t).1 hI
    | some j =>
      simp only
      have hjl := Index_some_length hI
      have hlt : (s.drop (j + t.length)).length < fuel := by
        rw [List.length_drop]; omega
      intro hin
      have hin1 : t <:+: s.take j ++ asterisk :: ([asterisk, asterisk] ++
          replaceDirect t stars fuel (s.drop (j + t.length))) := by
        simpa [stars] using hin
      rcases occurs_of_append_cons hstar hin1 with h1 | h1
      · exact Index_some_take ht hI h1
      · have h2 : t <:+: [] ++ asterisk :: ([asterisk] ++ replaceDirect t stars fuel
            (s.drop (j + t.length))) := by simpa using h1
        rcases occurs_of_append_cons hstar h2 with h3 | h3
        · exact ht (by simpa using h3)
        · have h4 : t <:+: [] ++ asterisk :: (replaceDirect t stars fuel
              (s.drop (j + t.length))) := by simpa using h3
          rcases occurs_of_append_cons hstar h4 with h5 | h5
          · exact ht (by simpa using h5)
          · exact ih _ hlt h5

theorem ReplaceAll_clean (s t : List Byte) (ht : t ≠ []) (hstar : asterisk ∉ t) :
    ∃ line, ReplaceAll s t stars = some line ∧ ¬ t <:+: line := by
  have hne : t ≠ stars := by
    intro h; rw [h] at hstar; simp [stars] at hstar
  exact ⟨_, Replace_eq_direct s t stars ht hne,
    replaceDirect_clean t ht hstar _ s (Nat.lt_succ_self _)⟩

theorem ReplaceAll_of_absent (s t new : List Byte) (ht : t ≠ []) (h : ¬ t <:+: s) :
    ReplaceAll s t new = some s := by
  have hlen : t.length ≠ 0 := by simpa using ht
  have hI := (Index_eq_none_iff s t).2 h
  simp [ReplaceAll, Replace, Count, hlen, CountLoop, hI]

theorem ReplaceAll_isSome (s t new : List Byte) (ht : t ≠ []) :
    ∃ line, ReplaceAll s t new = some line := by
  by_cases hne : t = new
  · exact ⟨s, by simp [ReplaceAll, Replace, hne]⟩
  · exact ⟨_, Replace_eq_direct s t new ht hne⟩

/-! ## One `Write` call in closed form -/

theorem readStringSpec_no_newline (s : List Byte) (delim : Byte) (h : delim ∉ s) :
    readStringSpec s delim = (s, some Error.EOF, []) := by
  unfold readStringSpec
  rw [(IndexByte_eq_none_iff s delim).2 h]

theorem readStringSpec_line (body : List Byte) (delim : Byte) (h : delim ∉ body) :
    readStringSpec (body ++ [delim]) delim = (body ++ [delim], none, []) := by
  have hidx : IndexByte (body ++ [delim]) delim = some body.length := by
    rw [IndexByte_append, (IndexByte_eq_none_iff body delim).2 h]
    simp [IndexByte]
  unfold readStringSpec
  rw [hidx]
  have h0 : 0 < defaultBufSize := by simp [defaultBufSize]
  have hlt := Nat.lt_mul_div_succ body.length h0
  have e1 : (body ++ [delim]).take (body.length + 1) = body ++ [delim] :=
    List.take_of_length_le (by simp)
  have e2 : (body ++ [delim]).drop (defaultBufSize * (body.length / defaultBufSize + 1)) = [] :=
    List.drop_of_length_le (by simp; omega)
  simp only [e1, e2]

theorem Write_New_eq (ens : Bool) (t : List Byte) (ms : List (List Byte)) (data : List Byte)
    (e : Option Error) :
    Write (New ens (t :: ms)) data e =
      (ReplaceAll (readStringSpec data newline).1 t stars).map (fun line =>
        ({ buffer := (readStringSpec data newline).2.2, masking := t :: ms,
           ensureNewline := ens,
           trace := [Event.lock, Event.unlock, Event.lock, Event.backendWrite line,
             Event.unlock] },
          writeOutcome data e)) := by
  have hw := Write_eq (New ens (t :: ms)) data e t ms rfl
  rw [hw]
  simp [New]


theorem ReplaceLoop_nil_isSome (new : List Byte) :
    ∀ (k i : Nat) (rest b : List Byte), ∃ r, ReplaceLoop [] new k i rest b = some r := by
  intro k
  induction k with
  | zero => intro i rest b; exact ⟨_, rfl⟩
  | succ k ih =>
    intro i rest b
    by_cases hi : i > 0
    · simpa [ReplaceLoop, hi] using ih (i + 1) _ _
    · simpa [ReplaceLoop, hi] using ih (i + 1) _ _

theorem ReplaceAll_total (s old new : List Byte) : ∃ r, ReplaceAll s old new = some r := by
  by_cases hold : old = []
  · subst hold
    simp only [ReplaceAll, Replace]
    split
    · exact ⟨_, rfl⟩
    · split
      · exact ⟨_, rfl⟩
      · exact ReplaceLoop_nil_isSome new _ _ _ _
  · exact ReplaceAll_isSome s old new hold

theorem Write_total (w : Writer) (data : List Byte) (e : Option Error) :
    ∃ r, Write w data e = some r := by
  cases hm : w.masking with
  | nil => exact ⟨_, Write_nil_masking w data e hm⟩
  | cons t ms =>
    obtain ⟨line, hline⟩ :=
      ReplaceAll_total (readStringSpec (w.buffer ++ data) newline).1 t stars
    rw [Write_eq w data e t ms hm, hline]
    exact ⟨_, rfl⟩

/-! ## The claims -/

/-- C1 (defect of the code). The claim: a token split over two chunks never reaches the
backend.  The code: with masking set `["secret"]` the chunks `"sec"` and `"ret"` are
forwarded as they come, one partial line per `Write`, and the backend has received
`"secret"`. -/
theorem split_token_reaches_backend :
    (ascii "secret" ≠ [] ∧ newline ∉ ascii "secret" ∧ asterisk ∉ ascii "secret") ∧
    ∃ w, writeChunks (New false [ascii "secret"]) [ascii "sec", ascii "ret"] = some w ∧
      backendWrites w.trace = [ascii "sec", ascii "ret"] ∧
      ascii "secret" <:+: received w :=
  ⟨by decide, _, rfl, by decide, by decide⟩

/-- C2 (defect of the code). The claim: a chunk without a newline is kept in the buffer
and nothing is forwarded.  The code: `Write("hello secret wo")` on a fresh writer hands
`"hello *** wo"` to the backend and leaves the buffer empty. -/
theorem partial_line_is_forwarded :
    Write (New false [ascii "secret"]) (ascii "hello secret wo") none =
      some ({ buffer := [], masking := [ascii "secret"], ensureNewline := false,
              trace := [Event.lock, Event.unlock, Event.lock,
                Event.backendWrite (ascii "hello *** wo"), Event.unlock] },
            Outcome.returned 15 none) := by
  decide

/-- C3 (defect of the code). The claim: after all writes and `Close` the backend has
received every byte of the input.  The code: of the chunk `"a\nb\n"`, in which the
token `"x"` does not occur, the backend receives `"a\n"` only, and the buffer is empty:
the second line is lost. -/
theorem second_line_is_dropped :
    ¬ ascii "x" <:+: [ascii "a\nb\n"].flatten
    ∧ (writeChunks (New false [ascii "x"]) [ascii "a\nb\n"]).map
        (fun w => (w.buffer, (Close w none).1.buffer, received (Close w none).1))
      = some ([], [], ascii "a\n") := by
  decide

/-- C4 (defect of the code). The claim: every line of a chunk of several lines is
forwarded, masked, in order.  The code: of `"a secret\nb secret\n"` the backend gets
the one write `"a ***\n"`, also after `Close`, and the buffer is empty. -/
theorem only_first_line_is_forwarded :
    (Write (New false [ascii "secret"]) (ascii "a secret\nb secret\n") none).map
        (fun x => (backendWrites (Close x.1 none).1.trace, (Close x.1 none).1.buffer, x.2))
      = some ([ascii "a ***\n"], [], Outcome.returned 18 none) := by
  decide

/-- C5 (defect of the code). The claim: `Close` forwards the masked remainder of the
buffer.  The code: after `Write` of a newline followed by 4096 bytes `a` on a fresh
writer the buffer holds one `a`; `Close` leaves it there, and the backend has received
the newline only. -/
theorem close_keeps_pending_bytes :
    (Write (New false [ascii "secret"]) (newline :: List.replicate 4096 97) none).map
        (fun x => (x.1.buffer, received x.1, (Close x.1 none).1.buffer,
          received (Close x.1 none).1, x.2))
      = some ([97], [newline], [97], [newline], Outcome.returned 4097 none) := by
  have hspec : readStringSpec (newline :: List.replicate 4096 97) newline
      = ([newline], none, [97]) := by
    have hidx : IndexByte (newline :: List.replicate 4096 97) newline = some 0 := by
      simp only [IndexByte, ↓reduceIte]
    have e : defaultBufSize * (0 / defaultBufSize + 1) = 4095 + 1 := by
      simp [defaultBufSize]
    unfold readStringSpec
    rw [hidx]
    simp only [e, List.drop_succ_cons, List.drop_replicate, Nat.zero_add, List.take_succ_cons,
      List.take_zero]
    rfl
  have hrep : ReplaceAll [newline] (ascii "secret") stars = some [newline] := by decide
  rw [Write_New_eq, hspec, hrep]
  simp only [Option.map_some', received, backendWrites, Close, writeOutcome, List.length_cons,
    List.length_replicate, List.flatten, List.append_nil, List.cons_append, List.nil_append]

/-- C6 (defect of the code). The claim: with ensure-newline set, `Write` of a chunk
without newline and `Close` give the backend the masked chunk and one newline.  The
code: for `"hello"` the backend receives `"hello"`, and no newline. -/
theorem close_appends_no_newline :
    (Write (New true [ascii "secret"]) (ascii "hello") none).map
        (fun x => (received (Close x.1 none).1, (Close x.1 none).1.trace))
      = some (ascii "hello",
          [Event.lock, Event.unlock, Event.lock, Event.backendWrite (ascii "hello"),
            Event.unlock, Event.backendClose]) := by
  decide

/-- C7. With ensure-newline off, a non-empty token `t` and a chunk `data` without a
newline: `Write(data)` on a fresh writer returns `(len(data), nil)`, and after `Close`
the backend has received exactly `ReplaceAll(data, t, "***")`, no newline added. -/
theorem write_close_without_newline (t data : List Byte) (closeErr : Option Error)
    (ht : t ≠ []) (hnl : newline ∉ data) :
    ∃ w1, Write (New false [t]) data none = some (w1, Outcome.returned data.length none) ∧
      some (received (Close w1 closeErr).1) = ReplaceAll data t stars := by
  obtain ⟨line, hline⟩ := ReplaceAll_isSome data t stars ht
  refine ⟨Writer.mk [] [t] false
    [Event.lock, Event.unlock, Event.lock, Event.backendWrite line, Event.unlock], ?_, ?_⟩
  · rw [Write_New_eq, readStringSpec_no_newline data newline hnl, hline]
    rfl
  · simp [Close, received, backendWrites, hline]

/-- C7 at masking set `["pw=123"]` and `write("token pw=123")`, `close()`: the backend
has received `"token ***"`. -/
theorem write_close_without_newline_witness :
    (ascii "pw=123" ≠ [] ∧ newline ∉ ascii "token pw=123"
      ∧ ReplaceAll (ascii "token pw=123") (ascii "pw=123") stars = some (ascii "token ***"))
    ∧ ∃ w1, Write (New false [ascii "pw=123"]) (ascii "token pw=123") none
          = some (w1, Outcome.returned (ascii "token pw=123").length none) ∧
        some (received (Close w1 none).1)
          = ReplaceAll (ascii "token pw=123") (ascii "pw=123") stars :=
  ⟨by decide, write_close_without_newline (ascii "pw=123") (ascii "token pw=123") none
    (by decide) (by decide)⟩

/-- C8 (defect of the code). The claim: every token of the masking set is replaced, in
list order.  The code: with masking set `["a", "b"]` the line `"ab\n"` reaches the
backend as `"***b\n"`; only the first token is replaced. -/
theorem only_first_token_is_masked :
    (Write (New false [ascii "a", ascii "b"]) (ascii "ab\n") none).map
        (fun x => (backendWrites x.1.trace, x.2))
      = some ([ascii "***b\n"], Outcome.returned 3 none) := by
  decide

/-- C9. For a non-empty token `t` without an asterisk, any writer state with masking
set `[t]`, any `data` and any answer of the backend: `Write` returns, makes exactly one
backend write, and `t` does not occur in the bytes of that write. -/
theorem write_forwards_no_token (t : List Byte) (w : Writer) (data : List Byte)
    (backendErr : Option Error) (ht : t ≠ []) (hstar : asterisk ∉ t) (hm : w.masking = [t]) :
    ∃ w1 o line, Write w data backendErr = some (w1, o) ∧
      w1.trace = w.trace ++ [Event.lock, Event.unlock, Event.lock, Event.backendWrite line,
        Event.unlock] ∧
      ¬ t <:+: line := by
  obtain ⟨line, hline, hclean⟩ :=
    ReplaceAll_clean (readStringSpec (w.buffer ++ data) newline).1 t ht hstar
  have hw := Write_eq w data backendErr t [] hm
  rw [hline] at hw
  exact ⟨_, _, line, hw, rfl, hclean⟩

/-- C9 at the token `"secret"`, a writer that still buffers `"my sec"`, and the chunk
`"ret is secret\n"`. -/
theorem write_forwards_no_token_witness :
    (ascii "secret" ≠ [] ∧ asterisk ∉ ascii "secret") ∧
    ∃ w1 o line,
      Write (Writer.mk (ascii "my sec") [ascii "secret"] false []) (ascii "ret is secret\n") none
        = some (w1, o) ∧
      w1.trace = [] ++ [Event.lock, Event.unlock, Event.lock, Event.backendWrite line,
        Event.unlock] ∧
      ¬ ascii "secret" <:+: line :=
  ⟨by decide, write_forwards_no_token (ascii "secret")
    (Writer.mk (ascii "my sec") [ascii "secret"] false []) (ascii "ret is secret\n") none
    (by decide) (by decide) rfl⟩

/-- C10. For a non-empty token `t` and a line `body ++ "\n"` whose only newline is the
last byte and in which `t` does not occur: `Write` of the line on a fresh writer with
masking set `[t]` makes one backend write, of exactly the line, empties the buffer and
returns `(len(line), nil)`. -/
theorem write_line_without_token (t body : List Byte) (ens : Bool) (ht : t ≠ [])
    (hnl : newline ∉ body) (habs : ¬ t <:+: body ++ [newline]) :
    Write (New ens [t]) (body ++ [newline]) none =
      some ({ buffer := [], masking := [t], ensureNewline := ens,
              trace := [Event.lock, Event.unlock, Event.lock,
                Event.backendWrite (body ++ [newline]), Event.unlock] },
            Outcome.returned (body.length + 1) none) := by
  rw [Write_New_eq, readStringSpec_line body newline hnl,
    ReplaceAll_of_absent _ t stars ht habs]
  simp [writeOutcome]

/-- C10 at the token `"secret"` and the line `"hello world\n"`. -/
theorem write_line_without_token_witness :
    (ascii "secret" ≠ [] ∧ newline ∉ ascii "hello world"
      ∧ ¬ ascii "secret" <:+: ascii "hello world" ++ [newline])
    ∧ Write (New true [ascii "secret"]) (ascii "hello world" ++ [newline]) none =
      some ({ buffer := [], masking := [ascii "secret"], ensureNewline := true,
              trace := [Event.lock, Event.unlock, Event.lock,
                Event.backendWrite (ascii "hello world" ++ [newline]), Event.unlock] },
            Outcome.returned ((ascii "hello world").length + 1) none) :=
  ⟨by decide, write_line_without_token (ascii "secret") (ascii "hello world") true
    (by decide) (by decide) (by decide)⟩


/-! ## Further lemmas on the reader, the traces and the flag -/

theorem IndexByte_some_spec {s : List Byte} {c : Byte} {i : Nat} (h : IndexByte s c = some i) :
    c ∉ s.take i ∧ s[i]? = some c := by
  induction s generalizing i with
  | nil => simp [IndexByte] at h
  | cons x xs ih =>
    simp only [IndexByte] at h
    split at h
    · rename_i hx
      simp only [Option.some.injEq] at h
      subst h
      simp [hx]
    · rename_i hx
      cases hj : IndexByte xs c with
      | none => simp [hj] at h
      | some j =>
        simp only [hj, Option.map_some', Option.some.injEq] at h
        subst h
        obtain ⟨h1, h2⟩ := ih hj
        refine ⟨?_, by simpa using h2⟩
        simp only [List.take_succ_cons, List.mem_cons, not_or]
        exact ⟨fun hc => hx hc.symm, h1⟩

theorem IndexByte_of_first {s : List Byte} {c : Byte} {i : Nat} (h1 : c ∉ s.take i)
    (h2 : s[i]? = some c) : IndexByte s c = some i := by
  obtain ⟨hlt, hget⟩ := List.getElem?_eq_some_iff.1 h2
  have hs : s = s.take i ++ c :: s.drop (i + 1) := by
    rw [← hget]
    simp
  have hlen : (s.take i).length = i := by
    rw [List.length_take]; omega
  rw [hs, IndexByte_append, (IndexByte_eq_none_iff _ c).2 (by simpa using h1)]
  simp [IndexByte, hlen]

theorem readStringSpec_split (s : List Byte) (delim : Byte) :
    ∃ mid, s = (readStringSpec s delim).1 ++ mid ++ (readStringSpec s delim).2.2 := by
  unfold readStringSpec
  cases hi : IndexByte s delim with
  | none => exact ⟨[], by simp⟩
  | some i =>
    have h0 : 0 < defaultBufSize := by simp [defaultBufSize]
    have hlt := Nat.lt_mul_div_succ i h0
    obtain ⟨d, hd⟩ : ∃ d, defaultBufSize * (i / defaultBufSize + 1) = (i + 1) + d :=
      ⟨defaultBufSize * (i / defaultBufSize + 1) - (i + 1), by omega⟩
    refine ⟨(s.drop (i + 1)).take d, ?_⟩
    have e2 : s.drop (i + 1 + d) = (s.drop (i + 1)).drop d := (List.drop_drop d (i + 1) s).symm
    simp only [hd]
    rw [e2, List.append_assoc, List.take_append_drop, List.take_append_drop]

theorem backendWrites_append (a b : List Event) :
    backendWrites (a ++ b) = backendWrites a ++ backendWrites b := by
  induction a with
  | nil => rfl
  | cons e es ih => cases e <;> simp [backendWrites, ih]

/-- C11. For every writer state with a non-empty masking set and every `data`: `Write`
returns `(len(data), nil)` when the backend write succeeds, and `(0, e)` when the backend
write fails with `e`.  So it returns an error exactly when the backend write fails; the
`io.EOF` of the line reader never comes out. -/
theorem write_return_values (w : Writer) (data : List Byte) (hm : w.masking ≠ []) :
    (∃ w1, Write w data none = some (w1, Outcome.returned data.length none)) ∧
    ∀ e, ∃ w1, Write w data (some e) = some (w1, Outcome.returned 0 (some e)) := by
  cases hmask : w.masking with
  | nil => exact absurd hmask hm
  | cons t ms =>
    obtain ⟨line, hline⟩ :=
      ReplaceAll_total (readStringSpec (w.buffer ++ data) newline).1 t stars
    refine ⟨?_, fun e => ?_⟩
    · rw [Write_eq w data none t ms hmask, hline]
      exact ⟨_, rfl⟩
    · rw [Write_eq w data (some e) t ms hmask, hline]
      exact ⟨_, rfl⟩

/-- C11 at a fresh writer with masking set `["secret"]`, the chunk `"a secret\n"` and the
backend error `backend 1`. -/
theorem write_return_values_witness :
    (New false [ascii "secret"]).masking ≠ []
    ∧ (∃ w1, Write (New false [ascii "secret"]) (ascii "a secret\n") none
        = some (w1, Outcome.returned (ascii "a secret\n").length none))
    ∧ ∃ w1, Write (New false [ascii "secret"]) (ascii "a secret\n") (some (Error.backend 1))
        = some (w1, Outcome.returned 0 (some (Error.backend 1))) :=
  ⟨by decide,
    (write_return_values (New false [ascii "secret"]) (ascii "a secret\n") (by decide)).1,
    (write_return_values (New false [ascii "secret"]) (ascii "a secret\n") (by decide)).2
      (Error.backend 1)⟩

theorem drop_min_length (s : List Byte) (k : Nat) : s.drop (min s.length k) = s.drop k := by
  by_cases h : k ≤ s.length
  · rw [Nat.min_eq_right h]
  · have h1 : s.length ≤ k := by omega
    rw [Nat.min_eq_left h1, List.drop_length, List.drop_of_length_le h1]

theorem Write_flag_irrelevant (w1 w2 : Writer) (data : List Byte) (e : Option Error)
    (hb : w1.buffer = w2.buffer) (hm : w1.masking = w2.masking) (ht : w1.trace = w2.trace) :
    ∃ x1 x2 o, Write w1 data e = some (x1, o) ∧ Write w2 data e = some (x2, o) ∧
      x1.buffer = x2.buffer ∧ x1.masking = x2.masking ∧ x1.trace = x2.trace ∧
      x1.ensureNewline = w1.ensureNewline ∧ x2.ensureNewline = w2.ensureNewline := by
  cases hmask : w1.masking with
  | nil =>
    have hmask2 : w2.masking = [] := by rw [← hm, hmask]
    rw [Write_nil_masking w1 data e hmask, Write_nil_masking w2 data e hmask2]
    exact ⟨_, _, _, rfl, rfl, by simp [hb], by simp [hm], by simp [ht], rfl, rfl⟩
  | cons t ms =>
    have hmask2 : w2.masking = t :: ms := by rw [← hm, hmask]
    obtain ⟨line, hline⟩ :=
      ReplaceAll_total (readStringSpec (w1.buffer ++ data) newline).1 t stars
    have hline2 := hline
    rw [hb] at hline2
    rw [Write_eq w1 data e t ms hmask, Write_eq w2 data e t ms hmask2, hline, hline2]
    exact ⟨_, _, _, rfl, rfl, by simp [hb], by simp [hm], by simp [ht], rfl, rfl⟩

theorem runCalls_flag_irrelevant (calls : List Call) :
    ∀ (w1 w2 : Writer), w1.buffer = w2.buffer → w1.masking = w2.masking →
      w1.trace = w2.trace →
      ∃ x1 x2 rs, runCalls w1 calls = some (x1, rs) ∧ runCalls w2 calls = some (x2, rs) ∧
        x1.buffer = x2.buffer ∧ x1.trace = x2.trace := by
  induction calls with
  | nil => intro w1 w2 hb _ ht; exact ⟨w1, w2, [], rfl, rfl, hb, ht⟩
  | cons c cs ih =>
    intro w1 w2 hb hm ht
    cases c with
    | write data e =>
      obtain ⟨y1, y2, o, h1, h2, hb1, hm1, ht1, _, _⟩ :=
        Write_flag_irrelevant w1 w2 data e hb hm ht
      obtain ⟨x1, x2, rs, g1, g2, hb2, ht2⟩ := ih y1 y2 hb1 hm1 ht1
      refine ⟨x1, x2, CallResult.ofWrite o :: rs, ?_, ?_, hb2, ht2⟩
      · simp [runCalls, h1, g1]
      · simp [runCalls, h2, g2]
    | close e =>
      obtain ⟨x1, x2, rs, g1, g2, hb2, ht2⟩ :=
        ih (Close w1 e).1 (Close w2 e).1 (by simpa [Close] using hb) (by simpa [Close] using hm)
          (by simp [Close, ht])
      refine ⟨x1, x2, CallResult.ofClose e :: rs, ?_, ?_, hb2, ht2⟩
      · have : runCalls (Close w1 e).1 cs = some (x1, rs) := g1
        simp only [Close] at this
        simp [runCalls, Close, this]
      · have : runCalls (Close w2 e).1 cs = some (x2, rs) := g2
        simp only [Close] at this
        simp [runCalls, Close, this]

/-- C15 (defect of the code). The claim: every backend call is made while the guard is
held.  The code: `Close` on a fresh writer calls `backend.Close()` and nothing else, so
with the guard released; `Write` makes its backend write between `Lock` and
`Unlock`. -/
theorem close_calls_backend_unguarded :
    (Close (New false [ascii "secret"]) none).1.trace = [Event.backendClose]
    ∧ backendCallsGuarded false (Close (New false [ascii "secret"]) none).1.trace = false
    ∧ (Write (New false [ascii "secret"]) (ascii "a\n") none).map
          (fun x => (x.1.trace, backendCallsGuarded false x.1.trace))
        = some ([Event.lock, Event.unlock, Event.lock, Event.backendWrite (ascii "a\n"),
            Event.unlock], true) := by
  decide

theorem Write_panicked_iff (w : Writer) (data : List Byte) (backendErr : Option Error) :
    ∃ w1 o, Write w data backendErr = some (w1, o)
      ∧ (o = Outcome.panicked ↔ w.masking = [])
      ∧ (w.masking = [] →
          w1.trace = w.trace ++ [Event.lock, Event.unlock, Event.lock]
          ∧ backendWrites w1.trace = backendWrites w.trace) := by
  cases hmask : w.masking with
  | nil =>
    rw [Write_nil_masking w data backendErr hmask]
    refine ⟨_, _, rfl, by simp, fun _ => ⟨rfl, ?_⟩⟩
    simp [backendWrites_append, backendWrites]
  | cons t ms =>
    obtain ⟨line, hline⟩ :=
      ReplaceAll_total (readStringSpec (w.buffer ++ data) newline).1 t stars
    rw [Write_eq w data backendErr t ms hmask, hline]
    refine ⟨_, _, rfl, ?_, by simp⟩
    cases backendErr <;> simp [writeOutcome]

theorem Write_second_lock_follows_unlock (w : Writer) (data : List Byte)
    (backendErr : Option Error) :
    ∃ w1 o rest, Write w data backendErr = some (w1, o)
      ∧ w1.trace = w.trace ++ [Event.lock, Event.unlock, Event.lock] ++ rest
      ∧ guardAfter true [Event.lock, Event.unlock] = false := by
  cases hmask : w.masking with
  | nil =>
    rw [Write_nil_masking w data backendErr hmask]
    exact ⟨_, _, [], rfl, by simp, rfl⟩
  | cons t ms =>
    obtain ⟨line, hline⟩ :=
      ReplaceAll_total (readStringSpec (w.buffer ++ data) newline).1 t stars
    rw [Write_eq w data backendErr t ms hmask, hline]
    exact ⟨_, _, [Event.backendWrite line, Event.unlock], rfl, by simp, rfl⟩

/-- C16, as stated, fails: not every `Write` on a writer with an empty masking set fails
at the lookup.  On a fresh such writer the first `Write("a")` panics at `masking[0]`,
between the `Lock` of line 53 and the `Unlock` of line 57, and leaves the guard held; on
a mutual-exclusion lock the second `Write("a")` waits in the `Lock` of line 45 and never
comes to the lookup. -/
theorem second_write_blocks_before_lookup :
    WriteExclusive (New false []) (ascii "a") none
      = some (Progress.finished
          (Writer.mk [] [] false [Event.lock, Event.unlock, Event.lock]) Outcome.panicked)
    ∧ guardHeld (Writer.mk [] [] false [Event.lock, Event.unlock, Event.lock]) = true
    ∧ WriteExclusive (Writer.mk [] [] false [Event.lock, Event.unlock, Event.lock])
        (ascii "a") none
      = some Progress.blocked := by
  decide

/-- C16, amended. `New` builds a writer from an empty masking set as from any other,
with the guard released.  For every writer state, `data` and backend answer, on a
mutual-exclusion lock: `Write` waits in its first `Lock` exactly when the guard is held,
and it panics at `masking[0]` exactly when the guard is released and the masking set is
empty; then it has made the calls `Lock`, `Unlock`, `Lock` and no backend call.  With a
non-empty masking set the lookup never fails. -/
theorem masking_lookup_fails_iff_empty_and_lock_returns (ens : Bool) (w : Writer)
    (data : List Byte) (backendErr : Option Error) :
    (New ens [] = { buffer := [], masking := [], ensureNewline := ens, trace := [] }
      ∧ guardHeld (New ens []) = false)
    ∧ ∃ p, WriteExclusive w data backendErr = some p
      ∧ (p = Progress.blocked ↔ guardHeld w = true)
      ∧ ((∃ w1, p = Progress.finished w1 Outcome.panicked)
          ↔ (guardHeld w = false ∧ w.masking = []))
      ∧ (∀ w1, p = Progress.finished w1 Outcome.panicked →
          w1.trace = w.trace ++ [Event.lock, Event.unlock, Event.lock]
          ∧ backendWrites w1.trace = backendWrites w.trace) := by
  refine ⟨⟨rfl, rfl⟩, ?_⟩
  cases hg : guardHeld w with
  | true =>
    refine ⟨Progress.blocked, by simp [WriteExclusive, hg], by simp, ?_, ?_⟩
    · simp
    · intro w1 h; cases h
  | false =>
    obtain ⟨w1, o, hw, hiff, htr⟩ := Write_panicked_iff w data backendErr
    refine ⟨Progress.finished w1 o, by simp [WriteExclusive, hg, hw], by simp, ?_, ?_⟩
    · constructor
      · rintro ⟨w2, h⟩
        injection h with _ ho
        exact ⟨rfl, hiff.1 ho⟩
      · rintro ⟨_, hm⟩
        exact ⟨w1, by rw [hiff.2 hm]⟩
    · intro w2 h
      injection h with hw12 ho
      subst hw12
      exact htr (hiff.1 ho)

/-- C16, amended, at a fresh writer with an empty masking set and the chunk `"a"`. -/
theorem masking_lookup_fails_iff_empty_and_lock_returns_witness :
    (New false [] = { buffer := [], masking := [], ensureNewline := false, trace := [] }
      ∧ guardHeld (New false []) = false)
    ∧ ∃ p, WriteExclusive (New false []) (ascii "a") none = some p
      ∧ (p = Progress.blocked ↔ guardHeld (New false []) = true)
      ∧ ((∃ w1, p = Progress.finished w1 Outcome.panicked)
          ↔ (guardHeld (New false []) = false ∧ (New false []).masking = []))
      ∧ (∀ w1, p = Progress.finished w1 Outcome.panicked →
          w1.trace = (New false []).trace ++ [Event.lock, Event.unlock, Event.lock]
          ∧ backendWrites w1.trace = backendWrites (New false []).trace) :=
  masking_lookup_fails_iff_empty_and_lock_returns false (New false []) (ascii "a") none

/-- C17. Closed form of one `Write`, for buffer `b`, first masking token `t` and `data`,
with `s = b ++ data`.  If `s` holds no newline, the backend is handed
`ReplaceAll(s, t, "***")` and the buffer is left empty.  If the first newline of `s` is
at index `i`, the backend is handed `ReplaceAll(s[0..i], t, "***")` and the buffer is
left as `s` without its first `min(len(s), 4096 * (i / 4096 + 1))` bytes. -/
theorem write_closed_form (w : Writer) (data t : List Byte) (ms : List (List Byte))
    (backendErr : Option Error) (hm : w.masking = t :: ms) :
    (newline ∉ w.buffer ++ data →
      ∃ line, ReplaceAll (w.buffer ++ data) t stars = some line ∧
        Write w data backendErr =
          some ({ w with
              buffer := [],
              trace := w.trace ++ [Event.lock, Event.unlock, Event.lock,
                Event.backendWrite line, Event.unlock] },
            writeOutcome data backendErr)) ∧
    (∀ i, newline ∉ (w.buffer ++ data).take i → (w.buffer ++ data)[i]? = some newline →
      ∃ line, ReplaceAll ((w.buffer ++ data).take (i + 1)) t stars = some line ∧
        Write w data backendErr =
          some ({ w with
              buffer := (w.buffer ++ data).drop
                (min (w.buffer ++ data).length (4096 * (i / 4096 + 1))),
              trace := w.trace ++ [Event.lock, Event.unlock, Event.lock,
                Event.backendWrite line, Event.unlock] },
            writeOutcome data backendErr)) := by
  constructor
  · intro hno
    obtain ⟨line, hline⟩ := ReplaceAll_total (w.buffer ++ data) t stars
    refine ⟨line, hline, ?_⟩
    rw [Write_eq w data backendErr t ms hm, readStringSpec_no_newline _ _ hno, hline]
    rfl
  · intro i h1 h2
    obtain ⟨line, hline⟩ := ReplaceAll_total ((w.buffer ++ data).take (i + 1)) t stars
    refine ⟨line, hline, ?_⟩
    have hidx := IndexByte_of_first h1 h2
    have hspec : readStringSpec (w.buffer ++ data) newline
        = ((w.buffer ++ data).take (i + 1), none,
            (w.buffer ++ data).drop (4096 * (i / 4096 + 1))) := by
      unfold readStringSpec
      rw [hidx]
      rfl
    rw [Write_eq w data backendErr t ms hm, hspec, hline, drop_min_length]
    rfl

/-- C17 at a writer that buffers `"ab"`, masking set `["b"]` and the chunk `"c\nd"`: the
first newline of `"abc\nd"` is at index 3. -/
theorem write_closed_form_witness :
    ((Writer.mk (ascii "ab") [ascii "b"] false []).masking = ascii "b" :: []
      ∧ newline ∉ (ascii "ab" ++ ascii "c\nd").take 3
      ∧ (ascii "ab" ++ ascii "c\nd")[3]? = some newline)
    ∧ ∃ line, ReplaceAll ((ascii "ab" ++ ascii "c\nd").take (3 + 1)) (ascii "b") stars
          = some line
        ∧ Write (Writer.mk (ascii "ab") [ascii "b"] false []) (ascii "c\nd") none =
          some ({ buffer := (ascii "ab" ++ ascii "c\nd").drop
                    (min (ascii "ab" ++ ascii "c\nd").length (4096 * (3 / 4096 + 1))),
                  masking := [ascii "b"], ensureNewline := false,
                  trace := [] ++ [Event.lock, Event.unlock, Event.lock,
                    Event.backendWrite line, Event.unlock] },
            writeOutcome (ascii "c\nd") none) :=
  ⟨⟨rfl, by decide, by decide⟩,
    (write_closed_form (Writer.mk (ascii "ab") [ascii "b"] false []) (ascii "c\nd") (ascii "b")
      [] none rfl).2 3 (by decide) (by decide)⟩

/-- C18. Two fresh writers with the same masking set, one with ensure-newline set and
one without, taken through the same calls of `Write` and `Close` with the same backend
answers: the calls give back the same results, the backend receives the same bytes (the
traces are equal), and the buffers are equal. -/
theorem ensureNewline_has_no_effect (masking : List (List Byte)) (calls : List Call) :
    ∃ w1 w2 rs,
      runCalls (New true masking) calls = some (w1, rs)
      ∧ runCalls (New false masking) calls = some (w2, rs)
      ∧ received w1 = received w2 ∧ w1.trace = w2.trace ∧ w1.buffer = w2.buffer := by
  obtain ⟨x1, x2, rs, g1, g2, hb, ht⟩ :=
    runCalls_flag_irrelevant calls (New true masking) (New false masking) rfl rfl rfl
  exact ⟨x1, x2, rs, g1, g2, by simp [received, ht], ht, hb⟩

theorem replaceDirect_lineShape (t new : List Byte) (ht : t ≠ []) (hnew : newline ∉ new) :
    ∀ (fuel : Nat) (l : List Byte),
      (∃ body tail, l = body ++ tail ∧ newline ∉ body ∧ tail.length ≤ 1) →
      ∃ body tail, replaceDirect t new fuel l = body ++ tail ∧ newline ∉ body
        ∧ tail.length ≤ 1 := by
  intro fuel
  induction fuel with
  | zero => intro l h; exact h
  | succ fuel ih =>
    intro l h
    simp only [replaceDirect]
    cases hI : Index l t with
    | none => exact h
    | some j =>
      obtain ⟨body, tail, hl, hb, htl⟩ := h
      have hjl := Index_some_length hI
      have ht0 : t.length ≠ 0 := by simpa using ht
      have hlen : l.length = body.length + tail.length := by rw [hl]; simp
      have hjb : j ≤ body.length := by omega
      have hrest : ∃ body1 tail1, l.drop (j + t.length) = body1 ++ tail1 ∧ newline ∉ body1
          ∧ tail1.length ≤ 1 := by
        refine ⟨body.drop (j + t.length), tail.drop (j + t.length - body.length), ?_,
          fun hc => hb (List.mem_of_mem_drop hc), ?_⟩
        · rw [hl, List.drop_append_eq_append_drop]
        · rw [List.length_drop]; omega
      obtain ⟨body1, tail1, h1, h2, h3⟩ := ih _ hrest
      refine ⟨l.take j ++ new ++ body1, tail1, ?_, ?_, h3⟩
      · simp only [h1]; simp
      · have htk : l.take j = body.take j := by
          rw [hl, List.take_append_of_le_length hjb]
        simp only [List.mem_append, not_or, htk]
        exact ⟨⟨fun hc => hb (List.mem_of_mem_take hc), hnew⟩, h2⟩

theorem readStringSpec_lineShape (s : List Byte) :
    ∃ body tail, (readStringSpec s newline).1 = body ++ tail ∧ newline ∉ body
      ∧ tail.length ≤ 1 := by
  unfold readStringSpec
  cases hi : IndexByte s newline with
  | none => exact ⟨s, [], by simp, (IndexByte_eq_none_iff s newline).1 hi, by simp⟩
  | some i =>
    obtain ⟨h1, h2⟩ := IndexByte_some_spec hi
    exact ⟨s.take i, [newline], by simp [List.take_succ, h2], h1, by simp⟩

theorem ReplaceAll_lineShape (l t : List Byte) (ht : t ≠ [])
    (h : ∃ body tail, l = body ++ tail ∧ newline ∉ body ∧ tail.length ≤ 1) :
    ∃ line body tail, ReplaceAll l t stars = some line ∧ line = body ++ tail
      ∧ newline ∉ body ∧ tail.length ≤ 1 := by
  by_cases hne : t = stars
  · obtain ⟨body, tail, h1, h2, h3⟩ := h
    exact ⟨l, body, tail, by simp [ReplaceAll, Replace, hne], h1, h2, h3⟩
  · have hnew : newline ∉ stars := by decide
    obtain ⟨body, tail, h1, h2, h3⟩ := replaceDirect_lineShape t stars ht hnew (l.length + 1) l h
    exact ⟨_, body, tail, Replace_eq_direct l t stars ht hne, h1, h2, h3⟩

/-- C13. For every writer state whose first masking token `t` is non-empty, every `data`
and every answer of the backend: `Write` makes one backend write, and its bytes are
`body` or `body` followed by one newline, where `body` holds no newline.  So they hold
at most one newline, and then as their last byte. -/
theorem write_forwards_at_most_one_line (w : Writer) (data t : List Byte)
    (ms : List (List Byte)) (backendErr : Option Error) (hm : w.masking = t :: ms)
    (ht : t ≠ []) :
    ∃ w1 o line body, Write w data backendErr = some (w1, o)
      ∧ w1.trace = w.trace ++ [Event.lock, Event.unlock, Event.lock, Event.backendWrite line,
          Event.unlock]
      ∧ newline ∉ body ∧ (line = body ∨ line = body ++ [newline]) := by
  obtain ⟨line, body, tail, hline, hshape, hb, htl⟩ :=
    ReplaceAll_lineShape (readStringSpec (w.buffer ++ data) newline).1 t ht
      (readStringSpec_lineShape (w.buffer ++ data))
  have hw := Write_eq w data backendErr t ms hm
  rw [hline] at hw
  match tail, htl, hshape with
  | [], _, hshape =>
    exact ⟨_, _, line, body, hw, rfl, hb, Or.inl (by simpa using hshape)⟩
  | [x], _, hshape =>
    by_cases hx : x = newline
    · subst hx
      exact ⟨_, _, line, body, hw, rfl, hb, Or.inr hshape⟩
    · refine ⟨_, _, line, body ++ [x], hw, rfl, ?_, Or.inl hshape⟩
      simp only [List.mem_append, List.mem_singleton, not_or]
      exact ⟨hb, fun hc => hx hc.symm⟩
  | _ :: _ :: _, htl, _ => simp at htl

/-- C13 at a fresh writer with masking set `["secret"]` and the chunk
`"a secret\nb\n"`. -/
theorem write_forwards_at_most_one_line_witness :
    ((New false [ascii "secret"]).masking = ascii "secret" :: [] ∧ ascii "secret" ≠ [])
    ∧ ∃ w1 o line body,
      Write (New false [ascii "secret"]) (ascii "a secret\nb\n") none = some (w1, o)
      ∧ w1.trace = (New false [ascii "secret"]).trace ++ [Event.lock, Event.unlock,
          Event.lock, Event.backendWrite line, Event.unlock]
      ∧ newline ∉ body ∧ (line = body ∨ line = body ++ [newline]) :=
  ⟨⟨rfl, by decide⟩, write_forwards_at_most_one_line (New false [ascii "secret"])
    (ascii "a secret\nb\n") (ascii "secret") [] none rfl (by decide)⟩

theorem received_Close (w : Writer) (closeErr : Option Error) :
    received (Close w closeErr).1 = received w := by
  simp [received, Close, backendWrites_append, backendWrites]

theorem writeChunks_sublist (t : List Byte) (ht : t ≠ []) :
    ∀ (chunks : List (List Byte)) (w : Writer), w.masking = [t] →
      ¬ t <:+: w.buffer ++ chunks.flatten →
      ∃ w1 fw, writeChunks w chunks = some w1 ∧ received w1 = received w ++ fw
        ∧ List.Sublist fw (w.buffer ++ chunks.flatten) := by
  intro chunks
  induction chunks with
  | nil => intro w _ _; exact ⟨w, [], rfl, by simp, by simp⟩
  | cons c cs ih =>
    intro w hm habs
    obtain ⟨mid, hsplit⟩ := readStringSpec_split (w.buffer ++ c) newline
    generalize hline : (readStringSpec (w.buffer ++ c) newline).1 = line at hsplit
    generalize hrest : (readStringSpec (w.buffer ++ c) newline).2.2 = rest at hsplit
    have hall : w.buffer ++ (c :: cs).flatten = line ++ (mid ++ (rest ++ cs.flatten)) := by
      simp only [List.flatten_cons, ← List.append_assoc]
      rw [hsplit]
    rw [hall] at habs
    have hl : ¬ t <:+: line := fun h => habs (h.trans (List.prefix_append _ _).isInfix)
    have hr : ¬ t <:+: rest ++ cs.flatten := fun h =>
      habs (h.trans ⟨line ++ mid, [], by simp⟩)
    have hw := Write_eq w c none t [] hm
    rw [hline, hrest, ReplaceAll_of_absent line t stars ht hl] at hw
    simp only [Option.map_some', writeOutcome] at hw
    obtain ⟨w2, fw, h1, h2, h3⟩ :=
      ih { w with
          buffer := rest,
          trace := w.trace ++ [Event.lock, Event.unlock, Event.lock, Event.backendWrite line,
            Event.unlock] } hm hr
    refine ⟨w2, line ++ fw, ?_, ?_, ?_⟩
    · simp only [writeChunks, hw]
      exact h1
    · rw [h2]
      simp [received, backendWrites_append, backendWrites]
    · rw [hall]
      exact List.Sublist.append (List.Sublist.refl line)
        (List.sublist_append_of_sublist_right h3)

/-- C14. For a non-empty token `t` that does not occur in the concatenation of the
chunks: after one `Write` per chunk on a fresh writer with masking set `[t]` (backend
never failing) and `Close`, the bytes the backend has received are a sublist of the
concatenation of the chunks, so they are at most as many. -/
theorem forwarded_is_sublist (t : List Byte) (chunks : List (List Byte)) (ens : Bool)
    (closeErr : Option Error) (ht : t ≠ []) (habs : ¬ t <:+: chunks.flatten) :
    ∃ w1, writeChunks (New ens [t]) chunks = some w1
      ∧ List.Sublist (received (Close w1 closeErr).1) chunks.flatten
      ∧ (received (Close w1 closeErr).1).length ≤ chunks.flatten.length := by
  obtain ⟨w1, fw, h1, h2, h3⟩ := writeChunks_sublist t ht chunks (New ens [t]) rfl
    (by simpa [New] using habs)
  have hrec : received (Close w1 closeErr).1 = fw := by
    rw [received_Close, h2]
    simp [received, New, backendWrites]
  have hsub : List.Sublist (received (Close w1 closeErr).1) chunks.flatten := by
    rw [hrec]
    simpa [New] using h3
  exact ⟨w1, h1, hsub, hsub.length_le⟩

/-- C14 at the token `"x"` and the chunks `"a\nb"`, `"c\n"`. -/
theorem forwarded_is_sublist_witness :
    (ascii "x" ≠ [] ∧ ¬ ascii "x" <:+: [ascii "a\nb", ascii "c\n"].flatten)
    ∧ ∃ w1, writeChunks (New false [ascii "x"]) [ascii "a\nb", ascii "c\n"] = some w1
      ∧ List.Sublist (received (Close w1 none).1) [ascii "a\nb", ascii "c\n"].flatten
      ∧ (received (Close w1 none).1).length ≤ [ascii "a\nb", ascii "c\n"].flatten.length :=
  ⟨by decide, forwarded_is_sublist (ascii "x") [ascii "a\nb", ascii "c\n"] false none
    (by decide) (by decide)⟩

/-- C12, as stated, fails: on a fresh writer with masking set `["x"]`, `Write("a\n")`
with a failing backend write returns `(0, e)` and leaves the buffer empty, not equal to
`"a\n"`; the line was handed to the backend and is not kept. -/
theorem failed_write_loses_line :
    (Write (New false [ascii "x"]) (ascii "a\n") (some (Error.backend 1))).map
        (fun x => (x.1.buffer, backendWrites x.1.trace, x.2))
      = some ([], [ascii "a\n"], Outcome.returned 0 (some (Error.backend 1)))
    ∧ ¬ (Write (New false [ascii "x"]) (ascii "a\n") (some (Error.backend 1))).map
          (fun x => x.1.buffer)
        = some ((New false [ascii "x"]).buffer ++ ascii "a\n") := by
  decide

/-- C12, amended. For every writer state with first masking token `t`, buffer `b` and
every `data`: a `Write(data)` whose backend write fails with `e` returns `(0, e)` and
leaves the buffer and the calls made exactly as the same `Write` with a successful
backend write does.  The line handed to the backend, masked, is not kept: `b ++ data` is
that line, a middle part, and the new buffer. -/
theorem failed_write_leaves_buffer_as_success (w : Writer) (data t : List Byte)
    (ms : List (List Byte)) (e : Error) (hm : w.masking = t :: ms) :
    ∃ w1 w2 line mid masked,
      Write w data (some e) = some (w1, Outcome.returned 0 (some e))
      ∧ Write w data none = some (w2, Outcome.returned data.length none)
      ∧ w1.buffer = w2.buffer ∧ w1.trace = w2.trace
      ∧ ReplaceAll line t stars = some masked
      ∧ w1.trace = w.trace ++ [Event.lock, Event.unlock, Event.lock,
          Event.backendWrite masked, Event.unlock]
      ∧ w.buffer ++ data = line ++ mid ++ w1.buffer := by
  obtain ⟨mid, hsplit⟩ := readStringSpec_split (w.buffer ++ data) newline
  obtain ⟨masked, hmasked⟩ :=
    ReplaceAll_total (readStringSpec (w.buffer ++ data) newline).1 t stars
  have h1 := Write_eq w data (some e) t ms hm
  have h2 := Write_eq w data none t ms hm
  rw [hmasked] at h1 h2
  exact ⟨_, _, _, mid, masked, h1, h2, rfl, rfl, hmasked, rfl, hsplit⟩


/-- C12, amended, at a fresh writer with masking set `["x"]`, the chunk `"a\nb"` and the
backend error `backend 1`. -/
theorem failed_write_leaves_buffer_as_success_witness :
    (New false [ascii "x"]).masking = ascii "x" :: []
    ∧ ∃ w1 w2 line mid masked,
      Write (New false [ascii "x"]) (ascii "a\nb") (some (Error.backend 1))
        = some (w1, Outcome.returned 0 (some (Error.backend 1)))
      ∧ Write (New false [ascii "x"]) (ascii "a\nb") none
        = some (w2, Outcome.returned (ascii "a\nb").length none)
      ∧ w1.buffer = w2.buffer ∧ w1.trace = w2.trace
      ∧ ReplaceAll line (ascii "x") stars = some masked
      ∧ w1.trace = (New false [ascii "x"]).trace ++ [Event.lock, Event.unlock, Event.lock,
          Event.backendWrite masked, Event.unlock]
      ∧ (New false [ascii "x"]).buffer ++ ascii "a\nb" = line ++ mid ++ w1.buffer :=
  ⟨rfl, failed_write_leaves_buffer_as_success (New false [ascii "x"]) (ascii "a\nb")
    (ascii "x") [] (Error.backend 1) rfl⟩
end MaskingWriter
